import Mathlib

/-!
Verification development for the distributed execution and state-evolution
core of a parallel PDE-solving framework (SpECTRE).

The repository sample contains `src/Time/Actions/UpdateU.hpp` (the `UpdateU`
action) and `src/ControlSystem/IsSize.hpp` (the `is_size` type trait).  The
DataBox internals, the time-stepper implementation and the element state
machine are declared and used by that code but their definitions are not in
the sample, so they are modelled from the specification, as marked on each
definition.  Time and value arithmetic is polymorphic over a linearly
ordered ring (a field where dense output divides), matching the
specification's requirement of an exact, high-precision representation;
concrete evaluations instantiate it at `ℤ` or `ℚ`.
-/

/-- Decidable equality for `Except`, used to evaluate concrete runs. -/
instance exceptDecidableEq {ε β : Type} [DecidableEq ε] [DecidableEq β] :
    DecidableEq (Except ε β) := fun a b =>
  match a, b with
  | Except.ok x, Except.ok y =>
    if h : x = y then isTrue (by rw [h]) else isFalse (by simp [h])
  | Except.error x, Except.error y =>
    if h : x = y then isTrue (by rw [h]) else isFalse (by simp [h])
  | Except.ok _, Except.error _ => isFalse (by simp)
  | Except.error _, Except.ok _ => isFalse (by simp)

namespace Spectre

/-- One history sample: a (time, value, time-derivative) triple for one
evolved field, as in the specification's history-buffer data model. -/
structure Entry (α : Type) where
  time : α
  value : α
  deriv : α
deriving DecidableEq

/-- The times stored in a history buffer, oldest first. -/
def times {α : Type} (h : List (Entry α)) : List α := h.map Entry.time

/-- Non-decreasing ordering of a list (the history order contract:
entries are ordered by non-decreasing time). -/
def ordered {α : Type} [LinearOrder α] : List α → Bool
  | [] => true
  | [_] => true
  | a :: b :: rest => decide (a ≤ b) && ordered (b :: rest)

/-- Strictly increasing ordering of a list of times.  Histories produced by
the update operation have strictly increasing times because the new sample
time exceeds the newest stored time by the nonzero step size. -/
def strictOrdered {α : Type} [LinearOrder α] : List α → Bool
  | [] => true
  | [_] => true
  | a :: b :: rest => decide (a < b) && strictOrdered (b :: rest)

/-- The newest stored time of a history buffer; an empty buffer self-starts
at the field's evolution start time, taken as time origin 0. -/
def latestTime {α : Type} [Zero α] : List (Entry α) → α
  | [] => 0
  | [e] => e.time
  | _ :: rest => latestTime rest

/-- The oldest retained time of a history buffer (0 for an empty buffer). -/
def oldestTime {α : Type} [Zero α] : List (Entry α) → α
  | [] => 0
  | e :: _ => e.time

/-- Modelled from the spec: the time-stepper plug-in object
(`Tags::TimeStepperBase` in the Cache; its implementation is not under
`src/`, only its caller `UpdateU` is).  A `k`-step stepper carries its
declared order `k`, the application-specific weighted derivative
combination used to form the new value (coefficients determined by the
step size and the stored sample window), and the system's right-hand side
giving the time derivative at a (time, value) point. -/
structure Stepper (α : Type) where
  k : Nat
  combine : α → α → List (Entry α) → α
  derivF : α → α → α

/-- Modelled from the spec: the time-stepper `update(value, history, dt)`
operation (`time_stepper.update_u` is called by `UpdateU` but its
definition is not under `src/`).  It fails, producing no new state at all,
if `dt` is zero or if the stored timestamps together with the new sample
time violate the non-decreasing order contract; otherwise it computes the
new value as a weighted combination of the current value and the stored
derivative samples, appends the new (time, value, derivative) sample at
the newest end, and trims from the oldest end so that at most `k` entries
are retained.  The ramp-up window is declared by the history length
itself: with fewer than `k` stored samples the combination receives the
shorter window (a lower-order, self-starting formula), so a required
sample can never be missing outside the ramp-up window. -/
def Stepper.update_u {α : Type} [LinearOrderedCommRing α] (s : Stepper α)
    (value : α) (history : List (Entry α)) (dt : α) :
    Except String (α × List (Entry α)) :=
  let t := latestTime history
  let newT := t + dt
  if dt = 0 then Except.error "step size is zero"
  else if ordered (times history ++ [newT]) = false then
    Except.error "history times out of order"
  else
    let d0 := s.derivF t value
    let window := history.drop (history.length - (s.k - 1))
    let newValue := value + dt * s.combine dt d0 window
    let e : Entry α := ⟨newT, newValue, s.derivF newT newValue⟩
    let l := history ++ [e]
    Except.ok (newValue, l.drop (l.length - s.k))

/-- Modelled from the spec: iterated update calls, threading the evolved
value and the history.  `iterateUpdates s dt n v h` performs `n`
successive `update` calls starting from value `v` and history `h`. -/
def iterateUpdates {α : Type} [LinearOrderedCommRing α] (s : Stepper α)
    (dt : α) : Nat → α → List (Entry α) →
    Except String (α × List (Entry α))
  | 0, v, h => Except.ok (v, h)
  | n + 1, v, h =>
    match s.update_u v h dt with
    | Except.error msg => Except.error msg
    | Except.ok (v', h') => iterateUpdates s dt n v' h'

/-- Modelled from the spec: dense output.  Produces an interpolated value
at any query time within the span of the retained samples, using the same
sample set, interpolating between the two bracketing samples; it is a pure
function of the history, so it never mutates the buffer.  Outside the
retained span it produces nothing. -/
def denseOutput {α : Type} [LinearOrderedField α] :
    List (Entry α) → α → Option α
  | [], _ => none
  | [e], t => if t = e.time then some e.value else none
  | e1 :: e2 :: rest, t =>
    if t < e1.time then none
    else if t ≤ e2.time then
      if t = e1.time then some e1.value
      else if t = e2.time then some e2.value
      else some (e1.value +
        (t - e1.time) * (e2.value - e1.value) / (e2.time - e1.time))
    else denseOutput (e2 :: rest) t

end Spectre

namespace Spectre

/-! The `UpdateU` action, translated from `src/Time/Actions/UpdateU.hpp`.
The DataBox holding the action's tags is modelled as a record: the
evolved-variables value and its history under each candidate variables
tag (tags are numbered), the `Tags::TimeStep` value, and an opaque `rest`
component standing for every other tag in the box (the box's tag set is
part of its type, so tags can be neither added nor removed). -/

/-- The per-element DataBox as seen by `UpdateU`: values and histories
indexed by variables tag, the time step, and all remaining tags. -/
structure Box (α ρ : Type) where
  vars : Nat → α
  history : Nat → List (Entry α)
  timeStep : α
  rest : ρ

/-- The process-wide ConstGlobalCache as used by `UpdateU`: it holds the
shared time-stepper instance under `Tags::TimeStepperBase`. -/
structure Cache (α : Type) where
  timeStepper : Stepper α

/-- The metavariables supply `system::variables_tag`, used by `UpdateU`
when no explicit variables tag is provided. -/
structure Metavariables where
  systemVariablesTag : Nat

/-- A scheduling directive returned by an action to the scheduler. -/
inductive Directive
  | Continue
  | SuspendOnPhase (p : Nat)
  | Halt
  | Goto (n : Nat)
deriving DecidableEq

/-- The `tmpl::conditional_t` selecting the variables tag in
`Actions::UpdateU::apply`: the provided `VariablesTag`, or the
metavariables' `system::variables_tag` when none (`NoSuchType`) is
provided.  `none` plays the role of the `NoSuchType` default. -/
def resolveVariablesTag (vt : Option Nat) (m : Metavariables) : Nat :=
  match vt with
  | none => m.systemVariablesTag
  | some v => v

/-- `Actions::UpdateU::apply` from `src/Time/Actions/UpdateU.hpp`: it
resolves the variables tag, then mutates exactly the variables tag and
its history tag via `db::mutate`, reading `Tags::TimeStep` and calling
`time_stepper.update_u` from the cache's `Tags::TimeStepperBase`; the
inboxes and the array index are ignored, and the same box is returned
with no further directive (continue).  A stepper error aborts the
element, committing nothing. -/
def UpdateU.apply {α ρ ι κ : Type} [LinearOrderedCommRing α]
    (vt : Option Nat) (m : Metavariables) (box : Box α ρ) (inboxes : ι)
    (cache : Cache α) (arrayIndex : κ) :
    Except String (Box α ρ × ι × Directive) :=
  let tag := resolveVariablesTag vt m
  match cache.timeStepper.update_u (box.vars tag) (box.history tag)
      box.timeStep with
  | Except.error msg => Except.error msg
  | Except.ok (v', h') =>
    Except.ok
      ({ box with
          vars := Function.update box.vars tag v',
          history := Function.update box.history tag h' },
        inboxes, Directive.Continue)

end Spectre

namespace Spectre

/-! The lazily recomputed (derived) tags of the DataBox, modelled from the
spec (the DataBox implementation is not under `src/`). -/

/-- Modelled from the spec: the declaration of a derived tag — a pure
computation over the simple tag values, together with its prerequisite
tag list. -/
structure DerivedDecl (α : Type) where
  prereqs : List Nat
  compute : (Nat → α) → α

/-- Modelled from the spec: a DataBox with lazily recomputed derived tags.
`decls` maps each tag to its derived-tag declaration (`none` for a simple
tag), `vals` holds the simple tag values, and `memo` holds the memoized
value of each derived tag (`none` meaning dirty or never computed). -/
structure LazyBox (α : Type) where
  decls : Nat → Option (DerivedDecl α)
  vals : Nat → α
  memo : Nat → Option α

/-- Modelled from the spec: mutating a tag writes its value and
invalidates the dirty flag (clears the memoized value) of every derived
tag having the written tag among its prerequisites. -/
def mutateTag {α : Type} (b : LazyBox α) (t : Nat) (x : α) : LazyBox α :=
  { b with
      vals := Function.update b.vals t x,
      memo := fun d =>
        match b.decls d with
        | some decl => if t ∈ decl.prereqs then none else b.memo d
        | none => b.memo d }

/-- Modelled from the spec: reading a tag.  A simple tag returns its
stored value.  A derived tag returns its memoized value when clean; when
dirty it runs its declared computation exactly once, stores the result,
and returns it.  The third component counts how many times the declared
computation ran during this read. -/
def readTag {α : Type} (b : LazyBox α) (t : Nat) : α × LazyBox α × Nat :=
  match b.decls t with
  | none => (b.vals t, b, 0)
  | some decl =>
    match b.memo t with
    | some v => (v, b, 0)
    | none =>
      let v := decl.compute b.vals
      (v, { b with memo := Function.update b.memo t (some v) }, 1)

end Spectre

namespace Spectre

/-! The element state machine and inbox, modelled from the spec (the
action-list driver and inbox implementation are not under `src/`). -/

/-- Execution status of an element: running, suspended on a phase, or
terminated. -/
inductive Status
  | Running
  | Suspended (p : Nat)
  | Terminated
deriving DecidableEq

/-- Modelled from the spec: one action of an element's action list — a
box computation, an action awaiting a phase's data (merging the received
messages into the box), a halt, or an explicit jump. -/
inductive MAct (α : Type)
  | compute (f : α → α)
  | awaitPhase (p : Nat) (merge : List α → α → α)
  | halt
  | goto (n : Nat)

/-- Modelled from the spec: the static machine configuration — the ordered
action list and, per phase, the required senders of its merge policy
(the "all senders" policy: the phase is satisfied once every required
sender has delivered). -/
structure MachineCfg (α : Type) where
  acts : List (MAct α)
  required : Nat → List Nat

/-- Modelled from the spec: the dynamic element state — position in the
action list, status, box value, the inbox (messages keyed by phase and
sender), and how many times the action at each position has executed. -/
structure MState (α : Type) where
  pos : Nat
  status : Status
  val : α
  inbox : Nat → Nat → List α
  execCount : Nat → Nat

/-- Modelled from the spec: a phase's merge condition holds when every
required sender has at least one pending message for that phase. -/
def satisfiedB {α : Type} (cfg : MachineCfg α) (inbox : Nat → Nat → List α)
    (p : Nat) : Bool :=
  (cfg.required p).all (fun s => !(inbox p s).isEmpty)

/-- Modelled from the spec: the messages pending for a phase from its
required senders, in sender-policy order. -/
def phaseMessages {α : Type} (cfg : MachineCfg α)
    (inbox : Nat → Nat → List α) (p : Nat) : List α :=
  ((cfg.required p).map (fun s => inbox p s)).flatten

/-- Modelled from the spec: consuming a phase destroys all of its pending
inbox entries atomically (the full declared message set, duplicates
included). -/
def consumePhase {α : Type} (inbox : Nat → Nat → List α) (p : Nat) :
    Nat → Nat → List α :=
  fun p' s => if p' = p then [] else inbox p' s

/-- Increment the execution count at one position. -/
def bump (c : Nat → Nat) (i : Nat) : Nat → Nat :=
  Function.update c i (c i + 1)

/-- Modelled from the spec: executing the action at the current position.
A compute action mutates the box and advances.  An awaiting action runs
(consuming its phase atomically and merging the messages) only when the
phase's merge condition is satisfied, and otherwise suspends the element
without executing.  Reaching the end of the list terminates. -/
def execAt {α : Type} (cfg : MachineCfg α) (st : MState α) : MState α :=
  match cfg.acts.get? st.pos with
  | none => { st with status := Status.Terminated }
  | some (MAct.compute f) =>
    { st with
        val := f st.val, pos := st.pos + 1, status := Status.Running,
        execCount := bump st.execCount st.pos }
  | some (MAct.awaitPhase p merge) =>
    if satisfiedB cfg st.inbox p then
      { st with
          val := merge (phaseMessages cfg st.inbox p) st.val,
          inbox := consumePhase st.inbox p,
          pos := st.pos + 1, status := Status.Running,
          execCount := bump st.execCount st.pos }
    else { st with status := Status.Suspended p }
  | some MAct.halt =>
    { st with
        status := Status.Terminated,
        execCount := bump st.execCount st.pos }
  | some (MAct.goto n) =>
    { st with
        pos := n, status := Status.Running,
        execCount := bump st.execCount st.pos }

/-- An event seen by one element: a scheduler slot, or the arrival of a
message from a sender for a phase. -/
inductive MEvent (α : Type)
  | exec
  | deliver (p s : Nat) (msg : α)

/-- Modelled from the spec: one step of the element state machine.  A
delivery only appends to the inbox.  A scheduler slot executes the
current action when the element is running; a suspended element resumes
(and only then executes the awaited action) exactly when its inbox
satisfies the suspending phase's merge condition; a terminated element
stays put. -/
def stepM {α : Type} (cfg : MachineCfg α) (st : MState α) :
    MEvent α → MState α
  | MEvent.exec =>
    match st.status with
    | Status.Terminated => st
    | Status.Running => execAt cfg st
    | Status.Suspended p =>
      if satisfiedB cfg st.inbox p then execAt cfg st else st
  | MEvent.deliver p s msg =>
    { st with
        inbox := fun p' s' =>
          if p' = p then
            if s' = s then st.inbox p' s' ++ [msg] else st.inbox p' s'
          else st.inbox p' s' }

/-- Modelled from the spec: running the machine over a sequence of
events. -/
def runM {α : Type} (cfg : MachineCfg α) : MState α → List (MEvent α) →
    MState α
  | st, [] => st
  | st, ev :: evs => runM cfg (stepM cfg st ev) evs

end Spectre

namespace Spectre

/-! The `is_size` type trait, translated from
`src/ControlSystem/IsSize.hpp`. -/

/-- The labels of `domain::ObjectLabel`. -/
inductive ObjectLabel
  | A
  | B
  | C
deriving DecidableEq

/-- The closed set of C++ types against which the `is_size` trait is
instantiated: the `control_system::Systems::Size<Label, DerivOrder>`
template instances, a representative second control system template, and
all remaining (numbered) types. -/
inductive CppType
  | SizeSystem (label : ObjectLabel) (derivOrder : Nat)
  | TranslationSystem (label : ObjectLabel) (derivOrder : Nat)
  | Other (id : Nat)
deriving DecidableEq

/-- `control_system::size::is_size_v` from
`src/ControlSystem/IsSize.hpp`: the primary template derives
`std::false_type`; the single partial specialization for
`Systems::Size<Label, DerivOrder>` derives `std::true_type`. -/
def is_size_v : CppType → Bool
  | CppType.SizeSystem _ _ => true
  | CppType.TranslationSystem _ _ => false
  | CppType.Other _ => false

end Spectre

namespace Spectre

/-- Whether an `Except` outcome is an error. -/
def isError {ε β : Type} : Except ε β → Bool
  | Except.error _ => true
  | Except.ok _ => false

/-- A concrete one-step stepper over `ℤ` used to evaluate the theorems on
concrete runs: the combination is just the current derivative and the
right-hand side is the constant 1 (the constant-derivative test case). -/
def sampleStepper : Stepper ℤ := ⟨1, fun _ d _ => d, fun _ _ => 1⟩

/-- A cache holding the sample stepper. -/
def sampleCache : Cache ℤ := ⟨sampleStepper⟩

/-- Sample metavariables whose system variables tag is tag 0. -/
def sampleMeta : Metavariables := ⟨0⟩

/-- A concrete box: zero variables, empty histories, unit time step. -/
def sampleBox : Box ℤ Unit := ⟨fun _ => 0, fun _ => [], 1, ()⟩

/-- The box produced by one `UpdateU` application to `sampleBox`. -/
def sampleResultBox : Box ℤ Unit :=
  ⟨Function.update (fun _ => (0 : ℤ)) 0 1,
    Function.update (fun _ => ([] : List (Entry ℤ))) 0 [⟨1, 1, 1⟩], 1, ()⟩

/-- A concrete box whose time step is zero, so that `UpdateU` fails. -/
def sampleBoxZeroDt : Box ℤ Unit := ⟨fun _ => 0, fun _ => [], 0, ()⟩

/-- A concrete lazy box over `ℤ`: tag 1 is derived from the simple tag 0
(its computation adds one to tag 0's value); every tag is dirty. -/
def sampleLazyBox : LazyBox ℤ :=
  ⟨fun t => if t = 1 then some ⟨[0], fun vals => vals 0 + 1⟩ else none,
    fun _ => 0, fun _ => none⟩

/-- A concrete machine over `ℤ`: one action awaiting phase 0, whose merge
policy requires sender 0; other phases require no senders. -/
def sampleMachineCfg : MachineCfg ℤ :=
  ⟨[MAct.awaitPhase 0 (fun ms v => ms.foldl (fun a b => a + b) v)],
    fun p => if p = 0 then [0] else []⟩

/-- A concrete element state suspended on phase 0 with an empty inbox. -/
def sampleSuspendedState : MState ℤ :=
  ⟨0, Status.Suspended 0, 0, fun _ _ => [], fun _ => 0⟩

/-- A concrete event sequence: two scheduler slots around the delivery of
a message for the unrelated phase 1, which never satisfies phase 0. -/
def sampleEvents : List (MEvent ℤ) :=
  [MEvent.exec, MEvent.deliver 1 0 5, MEvent.exec]

/-- A concrete two-sample history over `ℚ` with strictly increasing
times. -/
def sampleHistoryQ : List (Entry ℚ) :=
  [Entry.mk 0 1 0, Entry.mk 2 5 0]

end Spectre

namespace Spectre

/-- `ordered` decides exactly the chain of `≤` along the list. -/
theorem ordered_eq_chain {α : Type} [LinearOrder α] (l : List α) :
    ordered l = true ↔ List.Chain' (· ≤ ·) l := by
  induction l with
  | nil => simp [ordered]
  | cons a t ih =>
    cases t with
    | nil => simp [ordered]
    | cons b t2 =>
      rw [List.chain'_cons, ← ih]
      simp [ordered]

/-- `strictOrdered` decides exactly the chain of `<` along the list. -/
theorem strictOrdered_eq_chain {α : Type} [LinearOrder α] (l : List α) :
    strictOrdered l = true ↔ List.Chain' (· < ·) l := by
  induction l with
  | nil => simp [strictOrdered]
  | cons a t ih =>
    cases t with
    | nil => simp [strictOrdered]
    | cons b t2 =>
      rw [List.chain'_cons, ← ih]
      simp [strictOrdered]

/-- Elimination of a successful update: the step size was nonzero, the
appended time sequence was in order, and the new history is the appended
list trimmed at the oldest end to at most `k` entries. -/
theorem update_u_ok_elim {α : Type} [LinearOrderedCommRing α]
    {s : Stepper α} {v dt v' : α} {hi h' : List (Entry α)}
    (hok : s.update_u v hi dt = Except.ok (v', h')) :
    dt ≠ 0 ∧ ordered (times hi ++ [latestTime hi + dt]) = true ∧
      h' = (hi ++
          [Entry.mk (latestTime hi + dt) v'
            (s.derivF (latestTime hi + dt) v')]).drop
        (hi.length + 1 - s.k) := by
  simp only [Stepper.update_u] at hok
  by_cases h1 : dt = 0
  · rw [if_pos h1] at hok
    exact absurd hok (by simp)
  · rw [if_neg h1] at hok
    by_cases h2 : ordered (times hi ++ [latestTime hi + dt]) = false
    · rw [if_pos h2] at hok
      exact absurd hok (by simp)
    · rw [if_neg h2] at hok
      have h2' : ordered (times hi ++ [latestTime hi + dt]) = true := by
        cases hx : ordered (times hi ++ [latestTime hi + dt])
        · exact absurd hx h2
        · rfl
      injection hok with hp
      have hv := congrArg Prod.fst hp
      have hh := congrArg Prod.snd hp
      simp only at hv hh
      refine ⟨h1, h2', ?_⟩
      subst hv
      rw [← hh]
      simp

/-- The history length after one successful update is the old length plus
one, capped at the stepper's order. -/
theorem update_u_length {α : Type} [LinearOrderedCommRing α]
    {s : Stepper α} {v dt v' : α} {hi h' : List (Entry α)}
    (hok : s.update_u v hi dt = Except.ok (v', h')) :
    h'.length = min (hi.length + 1) s.k := by
  obtain ⟨-, -, hdrop⟩ := update_u_ok_elim hok
  subst hdrop
  simp
  omega

/-- The history length after `n` successful updates from any starting
history. -/
theorem iterateUpdates_length {α : Type} [LinearOrderedCommRing α]
    (s : Stepper α) (dt : α) :
    ∀ (n : Nat) (v : α) (hi : List (Entry α)) (r : α × List (Entry α)),
      iterateUpdates s dt n v hi = Except.ok r →
      r.2.length = if n = 0 then hi.length else min (hi.length + n) s.k := by
  intro n
  induction n with
  | zero =>
    intro v hi r hok
    simp only [iterateUpdates] at hok
    injection hok with h
    subst h
    simp
  | succ m ih =>
    intro v hi r hok
    simp only [iterateUpdates] at hok
    cases hu : s.update_u v hi dt with
    | error msg =>
      rw [hu] at hok
      exact Except.noConfusion hok
    | ok p =>
      obtain ⟨v1, h1⟩ := p
      rw [hu] at hok
      have ihr := ih v1 h1 r hok
      have hlen := update_u_length hu
      simp only [List.length_nil, min_def] at ihr hlen ⊢
      split_ifs at ihr hlen ⊢ <;> first | contradiction | omega

/-- C1: for a `k`-step time-stepper, after every sequence of `n` successful
`update` calls starting from an empty history, the history length is
exactly `min k n`: exactly `k` once `n ≥ k` and exactly `n` before. -/
theorem historyLengthAfterUpdates {α : Type} [LinearOrderedCommRing α]
    (s : Stepper α) (dt v : α) (n : Nat) (r : α × List (Entry α))
    (hok : iterateUpdates s dt n v [] = Except.ok r) :
    r.2.length = min s.k n := by
  have h := iterateUpdates_length s dt n v [] r hok
  simp only [List.length_nil, min_def] at h ⊢
  split_ifs at h ⊢ <;> first | contradiction | omega

/-- Witness for C1: three unit steps of a concrete 2-step stepper over `ℤ`
leave a history of length `min 2 3 = 2`. -/
theorem historyLengthAfterUpdates_witness :
    (((3 : ℤ), [Entry.mk (2 : ℤ) 2 1, Entry.mk (3 : ℤ) 3 1]) :
        ℤ × List (Entry ℤ)).2.length = min 2 3 :=
  historyLengthAfterUpdates ⟨2, fun _ d _ => d, fun _ _ => 1⟩ 1 0 3
    (3, [Entry.mk 2 2 1, Entry.mk 3 3 1]) (by decide)

/-- C10: `is_size_v T` is true exactly when `T` is
`control_system::Systems::Size<Label, DerivOrder>` for some object label
and some derivative order, and false for every other type. -/
theorem isSizeIffSizeSystem (T : CppType) :
    is_size_v T = true ↔
      ∃ (l : ObjectLabel) (d : Nat), T = CppType.SizeSystem l d := by
  cases T <;> simp [is_size_v]

/-- C9: instantiating `UpdateU` with no variables tag (the `NoSuchType`
default) behaves identically to instantiating it explicitly with the
metavariables' `system::variables_tag`: all results are equal. -/
theorem updateUDefaultTag {α ρ ι κ : Type} [LinearOrderedCommRing α]
    (m : Metavariables) (box : Box α ρ) (ib : ι) (c : Cache α) (i : κ) :
    UpdateU.apply none m box ib c i =
      UpdateU.apply (some m.systemVariablesTag) m box ib c i := rfl

/-- C8: the result of `UpdateU` is independent of the inboxes and of the
array index (its box-and-directive outcome is the same for any two
invocations differing only there); on success it hands the inboxes back
untouched and directs the scheduler to continue with the returned box. -/
theorem updateUInboxIndexIndependence {α ρ ι ι2 κ κ2 : Type}
    [LinearOrderedCommRing α] (vt : Option Nat) (m : Metavariables)
    (box : Box α ρ) (ib : ι) (ib2 : ι2) (c : Cache α) (i : κ) (i2 : κ2) :
    (UpdateU.apply vt m box ib c i).map (fun r => (r.1, r.2.2)) =
        (UpdateU.apply vt m box ib2 c i2).map (fun r => (r.1, r.2.2)) ∧
      ∀ r, UpdateU.apply vt m box ib c i = Except.ok r →
        r.2.1 = ib ∧ r.2.2 = Directive.Continue := by
  constructor
  · simp only [UpdateU.apply]
    cases c.timeStepper.update_u (box.vars (resolveVariablesTag vt m))
        (box.history (resolveVariablesTag vt m)) box.timeStep <;> rfl
  · intro r hok
    simp only [UpdateU.apply] at hok
    cases hu : c.timeStepper.update_u (box.vars (resolveVariablesTag vt m))
        (box.history (resolveVariablesTag vt m)) box.timeStep with
    | error msg =>
      rw [hu] at hok
      exact Except.noConfusion hok
    | ok p =>
      rw [hu] at hok
      injection hok with hp
      rw [← hp]
      exact ⟨rfl, rfl⟩

/-- Witness for C8: a concrete `UpdateU` run returns the inbox it was
given and the continue directive. -/
theorem updateUInboxIndexIndependence_witness :
    ((sampleResultBox, (7 : Nat), Directive.Continue) :
          Box ℤ Unit × Nat × Directive).2.1 = 7 ∧
      ((sampleResultBox, (7 : Nat), Directive.Continue) :
          Box ℤ Unit × Nat × Directive).2.2 = Directive.Continue :=
  (updateUInboxIndexIndependence none sampleMeta sampleBox 7 8 sampleCache
      9 10).2 (sampleResultBox, 7, Directive.Continue) (by rfl)

/-- C2: `UpdateU` modifies only the resolved variables tag and its history
tag; the time step (which it only reads) and every other tag keep their
values, and the box's tag set (fixed by its type) gains and loses
nothing. -/
theorem updateUFrame {α ρ ι κ : Type} [LinearOrderedCommRing α]
    (vt : Option Nat) (m : Metavariables) (box : Box α ρ) (ib : ι)
    (c : Cache α) (i : κ) (r : Box α ρ × ι × Directive)
    (hok : UpdateU.apply vt m box ib c i = Except.ok r) :
    r.1.timeStep = box.timeStep ∧ r.1.rest = box.rest ∧
      ∀ σ, σ ≠ resolveVariablesTag vt m →
        r.1.vars σ = box.vars σ ∧ r.1.history σ = box.history σ := by
  simp only [UpdateU.apply] at hok
  cases hu : c.timeStepper.update_u (box.vars (resolveVariablesTag vt m))
      (box.history (resolveVariablesTag vt m)) box.timeStep with
  | error msg =>
    rw [hu] at hok
    exact Except.noConfusion hok
  | ok p =>
    rw [hu] at hok
    injection hok with hp
    rw [← hp]
    refine ⟨rfl, rfl, fun σ hσ => ⟨?_, ?_⟩⟩
    · exact Function.update_noteq hσ _ _
    · exact Function.update_noteq hσ _ _

/-- Witness for C2: in a concrete `UpdateU` run the time step, the opaque
remaining tags, and the variables and history under the untouched tag 5
keep their values. -/
theorem updateUFrame_witness :
    sampleResultBox.timeStep = sampleBox.timeStep ∧
      sampleResultBox.rest = sampleBox.rest ∧
      (sampleResultBox.vars 5 = sampleBox.vars 5 ∧
        sampleResultBox.history 5 = sampleBox.history 5) := by
  have h := updateUFrame none sampleMeta sampleBox (7 : Nat) sampleCache
    (9 : Nat) (sampleResultBox, 7, Directive.Continue) (by rfl)
  exact ⟨h.1, h.2.1, h.2.2 5 (by decide)⟩

/-- C3: the time-stepper update fails — producing no new state at all, so
the history is never partially mutated — exactly when the step size is
zero or the stored timestamps together with the new sample time violate
the non-decreasing order contract (in this model the ramp-up window is
declared by the history length itself, so a required sample can never be
missing outside it); otherwise it succeeds.  A stepper failure propagates
out of `UpdateU` as an error, committing nothing to the box. -/
theorem updateErrorConditions {α : Type} [LinearOrderedCommRing α] :
    (∀ (s : Stepper α) (v : α) (hi : List (Entry α)) (dt : α),
        isError (s.update_u v hi dt) = true ↔
          dt = 0 ∨ ordered (times hi ++ [latestTime hi + dt]) = false) ∧
      ∀ (ρ ι κ : Type) (vt : Option Nat) (m : Metavariables)
        (box : Box α ρ) (ib : ι) (c : Cache α) (i : κ) (msg : String),
        c.timeStepper.update_u (box.vars (resolveVariablesTag vt m))
            (box.history (resolveVariablesTag vt m)) box.timeStep =
          Except.error msg →
        UpdateU.apply vt m box ib c i = Except.error msg := by
  constructor
  · intro s v hi dt
    rw [Stepper.update_u]
    by_cases h1 : dt = 0
    · simp [h1, isError]
    · by_cases h2 : ordered (times hi ++ [latestTime hi + dt]) = false
      · simp [h1, h2, isError]
      · simp [h1, h2, isError]
  · intro ρ ι κ vt m box ib c i msg herr
    simp only [UpdateU.apply]
    rw [herr]

/-- Witness for C3: a concrete `UpdateU` run with a zero time step fails
with the stepper's error, committing nothing. -/
theorem updateErrorConditions_witness :
    UpdateU.apply (α := ℤ) (ρ := Unit) none sampleMeta sampleBoxZeroDt
        (7 : Nat) sampleCache (9 : Nat) =
      Except.error "step size is zero" :=
  (updateErrorConditions (α := ℤ)).2 Unit Nat Nat none sampleMeta
    sampleBoxZeroDt 7 sampleCache 9 "step size is zero" (by decide)

/-- C6: a successful update preserves the invariant that history entries
are ordered by non-decreasing time, and it only appends the new sample at
the newest end while trimming from the oldest end: the new history is an
in-order suffix of the old history followed by the one new sample, so no
entry is ever reordered. -/
theorem updatePreservesOrder {α : Type} [LinearOrderedCommRing α]
    (s : Stepper α) (v dt v' : α) (hi h' : List (Entry α)) (hk : 1 ≤ s.k)
    (hok : s.update_u v hi dt = Except.ok (v', h')) :
    ordered (times h') = true ∧
      ∃ e : Entry α, e.time = latestTime hi + dt ∧
        h' = hi.drop (hi.length + 1 - s.k) ++ [e] := by
  obtain ⟨hdt, hord, hdrop⟩ := update_u_ok_elim hok
  have hd : hi.length + 1 - s.k ≤ hi.length := by omega
  rw [List.drop_append_of_le_length hd] at hdrop
  refine ⟨?_, Entry.mk (latestTime hi + dt) v'
    (s.derivF (latestTime hi + dt) v'), rfl, hdrop⟩
  rw [hdrop, ordered_eq_chain]
  rw [ordered_eq_chain] at hord
  have hd2 : hi.length + 1 - s.k ≤ (times hi).length := by
    rw [times, List.length_map]
    omega
  have key : times (hi.drop (hi.length + 1 - s.k) ++
        [Entry.mk (latestTime hi + dt) v'
          (s.derivF (latestTime hi + dt) v')]) =
      (times hi ++ [latestTime hi + dt]).drop (hi.length + 1 - s.k) := by
    rw [List.drop_append_of_le_length hd2]
    simp [times, List.map_drop]
  rw [key]
  exact List.Chain'.drop hord _

/-- Witness for C6: a concrete successful step from the empty history over
`ℤ` yields an ordered one-entry history consisting of the appended
sample. -/
theorem updatePreservesOrder_witness :
    ordered (times [Entry.mk (1 : ℤ) 1 1]) = true ∧
      ∃ e : Entry ℤ, e.time = latestTime ([] : List (Entry ℤ)) + 1 ∧
        [Entry.mk (1 : ℤ) 1 1] =
          ([] : List (Entry ℤ)).drop
              (List.length ([] : List (Entry ℤ)) + 1 - sampleStepper.k) ++
            [e] :=
  updatePreservesOrder sampleStepper 0 1 1 [] [Entry.mk 1 1 1] (by decide)
    (by decide)

/-- C4: reading a derived tag after mutating one of its prerequisites runs
its declared computation exactly once and yields the value recomputed
from the mutated prerequisites; reading it again with no intervening
mutation runs the computation zero further times and returns the same
memoized value and state. -/
theorem derivedTagMemoization {α : Type} (b : LazyBox α) (t p : Nat)
    (d : DerivedDecl α) (x : α) (hd : b.decls t = some d)
    (hp : p ∈ d.prereqs) :
    (readTag (mutateTag b p x) t).2.2 = 1 ∧
      (readTag (mutateTag b p x) t).1 = d.compute (mutateTag b p x).vals ∧
      readTag (readTag (mutateTag b p x) t).2.1 t =
        ((readTag (mutateTag b p x) t).1,
          (readTag (mutateTag b p x) t).2.1, 0) := by
  have hmemo : (mutateTag b p x).memo t = none := by
    simp [mutateTag, hd, hp]
  have hdecls : (mutateTag b p x).decls t = some d := hd
  simp [readTag, hdecls, hmemo, Function.update_same]

/-- Witness for C4: on the concrete lazy box, after mutating prerequisite
tag 0, reading derived tag 1 computes once (yielding 5 + 1), and an
immediately repeated read computes zero further times. -/
theorem derivedTagMemoization_witness :
    (readTag (mutateTag sampleLazyBox 0 5) 1).2.2 = 1 ∧
      (readTag (mutateTag sampleLazyBox 0 5) 1).1 =
        DerivedDecl.compute ⟨[0], fun vals => vals 0 + 1⟩
          (mutateTag sampleLazyBox 0 5).vals ∧
      readTag (readTag (mutateTag sampleLazyBox 0 5) 1).2.1 1 =
        ((readTag (mutateTag sampleLazyBox 0 5) 1).1,
          (readTag (mutateTag sampleLazyBox 0 5) 1).2.1, 0) :=
  derivedTagMemoization sampleLazyBox 1 0 ⟨[0], fun vals => vals 0 + 1⟩ 5
    (by rfl) (by decide)

/-- A scheduler slot or a delivery leaves a suspended element whose phase
is unsatisfied completely unmoved apart from its inbox. -/
theorem stepM_suspended_stuck {α : Type} (cfg : MachineCfg α)
    (st : MState α) (p : Nat) (ev : MEvent α)
    (h0 : st.status = Status.Suspended p)
    (hns : satisfiedB cfg st.inbox p = false) :
    (stepM cfg st ev).pos = st.pos ∧
      (stepM cfg st ev).status = st.status ∧
      (stepM cfg st ev).execCount = st.execCount := by
  cases ev with
  | exec => simp [stepM, h0, hns]
  | deliver q s msg => simp [stepM]

/-- Over any event sequence during which the suspending phase's merge
condition never becomes satisfied, a suspended element keeps its position,
its status and all its execution counts. -/
theorem runM_suspended_stable {α : Type} (cfg : MachineCfg α) (p : Nat) :
    ∀ (evs : List (MEvent α)) (st : MState α),
      st.status = Status.Suspended p →
      (∀ n, n ≤ evs.length →
        satisfiedB cfg (runM cfg st (evs.take n)).inbox p = false) →
      (runM cfg st evs).pos = st.pos ∧
        (runM cfg st evs).status = Status.Suspended p ∧
        (runM cfg st evs).execCount = st.execCount := by
  intro evs
  induction evs with
  | nil =>
    intro st h0 hns
    exact ⟨rfl, h0, rfl⟩
  | cons ev rest ih =>
    intro st h0 hns
    have hns0 : satisfiedB cfg st.inbox p = false := by
      have h := hns 0 (Nat.zero_le _)
      simpa [runM] using h
    have hstep := stepM_suspended_stuck cfg st p ev h0 hns0
    have hstat : (stepM cfg st ev).status = Status.Suspended p := by
      rw [hstep.2.1, h0]
    have hns1 : ∀ n, n ≤ rest.length →
        satisfiedB cfg (runM cfg (stepM cfg st ev) (rest.take n)).inbox p =
          false := by
      intro n hn
      have h2 := hns (n + 1) (by simp [hn])
      simpa [runM, List.take_succ_cons] using h2
    have hrest := ih (stepM cfg st ev) hstat hns1
    have hrun : runM cfg st (ev :: rest) =
        runM cfg (stepM cfg st ev) rest := rfl
    refine ⟨?_, ?_, ?_⟩ <;> rw [hrun]
    · rw [hrest.1, hstep.1]
    · exact hrest.2.1
    · rw [hrest.2.2, hstep.2.2]

/-- C7: an element suspended on a phase never advances past the awaiting
action while the inbox fails that phase's declared merge condition — over
any such event sequence its position, status and per-action execution
counts are unchanged — and a delivery event (in particular a duplicate
message for an already-satisfied phase) only changes the inbox, so it
never by itself re-triggers any action. -/
theorem suspendedPhaseDiscipline :
    (∀ (α : Type) (cfg : MachineCfg α) (evs : List (MEvent α))
        (st : MState α) (p : Nat),
        st.status = Status.Suspended p →
        (∀ n, n ≤ evs.length →
          satisfiedB cfg (runM cfg st (evs.take n)).inbox p = false) →
        (runM cfg st evs).pos = st.pos ∧
          (runM cfg st evs).status = Status.Suspended p ∧
          (runM cfg st evs).execCount = st.execCount) ∧
      ∀ (α : Type) (cfg : MachineCfg α) (st : MState α) (p s : Nat)
        (msg : α),
        (stepM cfg st (MEvent.deliver p s msg)).pos = st.pos ∧
          (stepM cfg st (MEvent.deliver p s msg)).status = st.status ∧
          (stepM cfg st (MEvent.deliver p s msg)).execCount =
            st.execCount ∧
          (stepM cfg st (MEvent.deliver p s msg)).val = st.val := by
  constructor
  · intro α cfg evs st p h0 hns
    exact runM_suspended_stable cfg p evs st h0 hns
  · intro α cfg st p s msg
    refine ⟨?_, ?_, ?_, ?_⟩ <;> simp [stepM]

/-- Witness for C7: on the concrete machine, the element stays suspended
on phase 0 across two scheduler slots and an unrelated delivery, and a
duplicate delivery for phase 0 itself changes no execution count. -/
theorem suspendedPhaseDiscipline_witness :
    (runM sampleMachineCfg sampleSuspendedState sampleEvents).status =
        Status.Suspended 0 ∧
      (stepM sampleMachineCfg sampleSuspendedState
            (MEvent.deliver 0 0 (5 : ℤ))).execCount =
        sampleSuspendedState.execCount :=
  ⟨(suspendedPhaseDiscipline.1 ℤ sampleMachineCfg sampleEvents
      sampleSuspendedState 0 (by rfl) (by decide)).2.1,
    (suspendedPhaseDiscipline.2 ℤ sampleMachineCfg sampleSuspendedState
      0 0 5).2.2.1⟩

/-- Dense output at a stored sample time returns exactly the stored
value, for histories with strictly increasing times. -/
theorem denseOutput_mem {α : Type} [LinearOrderedField α]
    (hi : List (Entry α)) (hp : List.Pairwise (· < ·) (times hi)) :
    ∀ e ∈ hi, denseOutput hi e.time = some e.value := by
  induction hi with
  | nil =>
    intro e he
    exact absurd he (List.not_mem_nil e)
  | cons e1 tl ih =>
    cases tl with
    | nil =>
      intro e he
      rcases List.mem_singleton.mp he with rfl
      simp [denseOutput]
    | cons e2 rest =>
      simp only [times, List.map_cons, List.pairwise_cons] at hp
      have h12 : e1.time < e2.time := hp.1 e2.time (by simp)
      have hp2 : List.Pairwise (· < ·) (times (e2 :: rest)) := by
        simpa [times] using hp.2
      intro e he
      rcases List.mem_cons.mp he with rfl | he2
      · simp [denseOutput, h12.le]
      · rcases List.mem_cons.mp he2 with rfl | he3
        · simp [denseOutput, not_lt.mpr h12.le, h12.ne']
        · have h2t : e2.time < e.time := by
            simp only [times, List.map_cons, List.pairwise_cons] at hp2
            exact hp2.1 e.time (List.mem_map_of_mem Entry.time he3)
          have h1t : e1.time < e.time := h12.trans h2t
          have hred : denseOutput (e1 :: e2 :: rest) e.time =
              denseOutput (e2 :: rest) e.time := by
            simp [denseOutput, not_lt.mpr h1t.le, not_le.mpr h2t]
          rw [hred]
          exact ih hp2 e he2

/-- Dense output produces a value at every query time within the span of
the retained samples, for histories with strictly increasing times. -/
theorem denseOutput_span {α : Type} [LinearOrderedField α]
    (hi : List (Entry α)) (hp : List.Pairwise (· < ·) (times hi)) :
    ∀ t, hi ≠ [] → oldestTime hi ≤ t → t ≤ latestTime hi →
      (denseOutput hi t).isSome = true := by
  induction hi with
  | nil =>
    intro t hne _ _
    exact absurd rfl hne
  | cons e1 tl ih =>
    cases tl with
    | nil =>
      intro t _ hlo hhi
      have ht : t = e1.time := by
        apply le_antisymm
        · simpa [latestTime] using hhi
        · simpa [oldestTime] using hlo
      simp [denseOutput, ht]
    | cons e2 rest =>
      have h12 : e1.time < e2.time := by
        simp only [times, List.map_cons, List.pairwise_cons] at hp
        exact hp.1 e2.time (by simp)
      have hp2 : List.Pairwise (· < ·) (times (e2 :: rest)) := by
        simp only [times, List.map_cons, List.pairwise_cons] at hp
        simpa [times] using hp.2
      intro t _ hlo hhi
      have h1t : e1.time ≤ t := by simpa [oldestTime] using hlo
      by_cases hle : t ≤ e2.time
      · by_cases he1 : t = e1.time
        · subst he1
          simp [denseOutput, hle]
        · by_cases he2 : t = e2.time
          · subst he2
            simp [denseOutput, not_lt.mpr h12.le, h12.ne']
          · simp [denseOutput, not_lt.mpr h1t, hle, he1, he2]
      · have h2t : e2.time < t := not_le.mp hle
        have hred : denseOutput (e1 :: e2 :: rest) t =
            denseOutput (e2 :: rest) t := by
          simp [denseOutput, not_lt.mpr h1t, hle]
        rw [hred]
        refine ih hp2 t (by simp) h2t.le ?_
        simpa [latestTime] using hhi

/-- C5: for every history buffer with strictly increasing sample times,
dense output — a pure function of the buffer, which therefore never
mutates it — produces an interpolated value at every query time within
the span of the retained samples, and at a stored sample time it returns
exactly the stored value (arithmetic is exact here, so no round-off
allowance is needed). -/
theorem denseOutputSpec {α : Type} [LinearOrderedField α]
    (hi : List (Entry α)) (hsort : strictOrdered (times hi) = true) :
    (∀ e ∈ hi, denseOutput hi e.time = some e.value) ∧
      ∀ t, hi ≠ [] → oldestTime hi ≤ t → t ≤ latestTime hi →
        (denseOutput hi t).isSome = true := by
  have hp : List.Pairwise (· < ·) (times hi) :=
    List.chain'_iff_pairwise.mp
      ((strictOrdered_eq_chain (times hi)).mp hsort)
  exact ⟨denseOutput_mem hi hp, denseOutput_span hi hp⟩

/-- Witness for C5: on the concrete rational two-sample history, dense
output reproduces the first stored value at its stored time and produces
a value at the interior query time 1. -/
theorem denseOutputSpec_witness :
    denseOutput sampleHistoryQ (Entry.mk (0 : ℚ) 1 0).time =
        some (Entry.mk (0 : ℚ) 1 0).value ∧
      (denseOutput sampleHistoryQ 1).isSome = true :=
  ⟨(denseOutputSpec sampleHistoryQ (by decide)).1 (Entry.mk 0 1 0)
      (by decide),
    (denseOutputSpec sampleHistoryQ (by decide)).2 1 (by decide)
      (by decide) (by decide)⟩

end Spectre
